import Mathlib

/-!
Verification development for the cosine-two-phi qubit core
(`scqubits/core/cos2phi_qubit.py` and `scqubits/core/operators.py`).

The Python code is shallowly embedded: matrices over `ℂ` (or `ℝ` where the
source works with float arrays) indexed by `Fin`-types, with the ordered
Kronecker product modelling `scipy.sparse.kron`.  External collaborators
(the matrix exponential `scipy.sparse.linalg.expm`, the golden-rule rate
integrator `NoisySystem.t1`, `calc_therm_ratio`, the harmonic-oscillator
wavefunction evaluator and the units conversion) are modelled as explicit
function parameters, since none of the verified properties depend on their
internals.  The `energy_esys = False` code path (native basis) is the one
embedded throughout, matching the claims.
-/

open scoped Classical
open Kronecker
open Matrix

noncomputable section

namespace Scq

/-- Square complex matrix of a given dimension. -/
abbrev CMat (n : ℕ) := Matrix (Fin n) (Fin n) ℂ

/-! ### operators.py -/

/-- Embeds `annihilation_sparse(dimension)`: off-diagonal entries
`sqrt(1..dimension-1)` on the first super-diagonal; entry `(i, i+1)` is
`sqrt (i+1)`, matching the `dia_matrix` construction with offset 1. -/
def annihilation_sparse (dimension : ℕ) : CMat dimension :=
  Matrix.of fun i j => if (j : ℕ) = (i : ℕ) + 1 then ((Real.sqrt (j : ℕ) : ℝ) : ℂ) else 0

/-- Embeds `creation_sparse(dimension)`: the transpose of the annihilation
operator (entries are real, so this matches `.transpose()`). -/
def creation_sparse (dimension : ℕ) : CMat dimension :=
  (annihilation_sparse dimension).transpose

/-- Embeds `number(dimension)` with the `prefactor` argument omitted
(`None`): the plain number operator with diagonal `0 .. dimension-1`. -/
def number_plain (dimension : ℕ) : Matrix (Fin dimension) (Fin dimension) ℝ :=
  Matrix.diagonal fun i => (i : ℝ)

/-- Embeds `number(dimension, prefactor)` from operators.py.  The source
guards the scaling with `if prefactor:`, i.e. Python truthiness, so a zero
prefactor leaves the diagonal unscaled. -/
def number (dimension : ℕ) (prefactor : ℝ) :
    Matrix (Fin dimension) (Fin dimension) ℝ :=
  Matrix.diagonal fun i => if prefactor = 0 then (i : ℝ) else (i : ℝ) * prefactor

/-- Embeds `number_sparse(dimension, prefactor)`: same diagonal data as
`number`, stored sparse in the source. -/
def number_sparse (dimension : ℕ) (prefactor : ℝ) :
    Matrix (Fin dimension) (Fin dimension) ℝ :=
  Matrix.diagonal fun i => if prefactor = 0 then (i : ℝ) else (i : ℝ) * prefactor

/-! ### Qubit parameters (cos2phi_qubit.py constructor attributes) -/

/-- The parameter fields of `Cos2PhiQubit` used by the embedded methods. -/
structure Params where
  EJ : ℝ
  ECJ : ℝ
  EL : ℝ
  EC : ℝ
  dCJ : ℝ
  dL : ℝ
  dEJ : ℝ
  flux : ℝ
  ng : ℝ
  ncut : ℕ
  zeta_cut : ℕ
  phi_cut : ℕ

/-- Embeds `default_params()`. -/
def default_params : Params :=
  { EJ := 15, ECJ := 2, EL := 1, EC := 0.04, dCJ := 0, dL := 0.6, dEJ := 0,
    flux := 0.5, ng := 0, ncut := 7, zeta_cut := 30, phi_cut := 7 }

/-- Embeds `_dim_phi()`. -/
@[reducible] def dim_phi (p : Params) : ℕ := p.phi_cut

/-- Embeds `_dim_zeta()`. -/
@[reducible] def dim_zeta (p : Params) : ℕ := p.zeta_cut

/-- Embeds `_dim_theta()`. -/
@[reducible] def dim_theta (p : Params) : ℕ := 2 * p.ncut + 1

/-- Embeds `hilbertdim()`. -/
def hilbertdim (p : Params) : ℕ := dim_phi p * dim_zeta p * dim_theta p

/-- Embeds `_disordered_el()`. -/
def disordered_el (p : Params) : ℝ := p.EL / (1 - p.dL ^ 2)

/-- Embeds `_disordered_ecj()`. -/
def disordered_ecj (p : Params) : ℝ := p.ECJ / (1 - p.dCJ ^ 2)

/-- Embeds `phi_osc()`. -/
def phi_osc (p : Params) : ℝ :=
  (2 * disordered_ecj p / disordered_el p) ^ (0.25 : ℝ)

/-- Embeds `zeta_osc()`. -/
def zeta_osc (p : Params) : ℝ :=
  (4 * p.EC / disordered_el p) ^ (0.25 : ℝ)

/-- Embeds `phi_plasma()`. -/
def phi_plasma (p : Params) : ℝ :=
  Real.sqrt (8 * disordered_el p * disordered_ecj p)

/-- Embeds `zeta_plasma()`. -/
def zeta_plasma (p : Params) : ℝ :=
  Real.sqrt (16 * p.EC * disordered_el p)

/-! ### Single-subspace operators -/

/-- Embeds `_phi_operator()`: `(creation + annihilation) * phi_osc / sqrt 2`. -/
def phi_operator_sub (p : Params) : CMat (dim_phi p) :=
  ((phi_osc p / Real.sqrt 2 : ℝ) : ℂ) •
    (creation_sparse (dim_phi p) + annihilation_sparse (dim_phi p))

/-- Embeds `_n_phi_operator()`: `1j * (creation - annihilation) / (phi_osc * sqrt 2)`. -/
def n_phi_operator_sub (p : Params) : CMat (dim_phi p) :=
  (Complex.I / ((phi_osc p * Real.sqrt 2 : ℝ) : ℂ)) •
    (creation_sparse (dim_phi p) - annihilation_sparse (dim_phi p))

/-- Embeds `_zeta_operator()`. -/
def zeta_operator_sub (p : Params) : CMat (dim_zeta p) :=
  ((zeta_osc p / Real.sqrt 2 : ℝ) : ℂ) •
    (creation_sparse (dim_zeta p) + annihilation_sparse (dim_zeta p))

/-- Embeds `_n_zeta_operator()`. -/
def n_zeta_operator_sub (p : Params) : CMat (dim_zeta p) :=
  (Complex.I / ((zeta_osc p * Real.sqrt 2 : ℝ) : ℂ)) •
    (creation_sparse (dim_zeta p) - annihilation_sparse (dim_zeta p))

/-- Embeds `_n_theta_operator()`: diagonal entries `-ncut .. ncut`, index `k`
carrying charge value `k - ncut`. -/
def n_theta_operator_sub (p : Params) : CMat (dim_theta p) :=
  Matrix.diagonal fun k => ((((k : ℕ) : ℤ) - (p.ncut : ℤ) : ℤ) : ℂ)

/-- Embeds `_cos_theta_operator()`: one half on both shift-by-one diagonals. -/
def cos_theta_operator_sub (p : Params) : CMat (dim_theta p) :=
  Matrix.of fun i j =>
    (if (j : ℕ) = (i : ℕ) + 1 then (((1 : ℝ) / 2 : ℝ) : ℂ) else 0) +
    (if (i : ℕ) = (j : ℕ) + 1 then (((1 : ℝ) / 2 : ℝ) : ℂ) else 0)

/-- Embeds `_sin_theta_operator()`: `(-1j)` times the antisymmetric
combination of the shift-by-one diagonals. -/
def sin_theta_operator_sub (p : Params) : CMat (dim_theta p) :=
  (-Complex.I) • ((Matrix.of fun i j =>
    (if (i : ℕ) = (j : ℕ) + 1 then (((1 : ℝ) / 2 : ℝ) : ℂ) else 0) -
    (if (j : ℕ) = (i : ℕ) + 1 then (((1 : ℝ) / 2 : ℝ) : ℂ) else 0)) : CMat (dim_theta p))

/-- Embeds `_cos_phi_operator()` given `E`, the value of the external matrix
exponential `expm(1j * phi_operator)`: `0.5 E` plus its conjugate transpose. -/
def cos_phi_operator_sub {n : ℕ} (E : CMat n) : CMat n :=
  (((1 : ℝ) / 2 : ℝ) : ℂ) • E + ((((1 : ℝ) / 2 : ℝ) : ℂ) • E)ᴴ

/-- Embeds `_sin_phi_operator()` given `E` as above:
`-1j * 0.5 * E` plus its conjugate transpose. -/
def sin_phi_operator_sub {n : ℕ} (E : CMat n) : CMat n :=
  (-Complex.I * (((1 : ℝ) / 2 : ℝ) : ℂ)) • E +
    ((-Complex.I * (((1 : ℝ) / 2 : ℝ) : ℂ)) • E)ᴴ

/-! ### Composite Hilbert space -/

/-- Embeds `_kron3(mat1, mat2, mat3)`: `kron(kron(mat1, mat2), mat3)`. -/
def kron3 {a b c : ℕ} (m1 : CMat a) (m2 : CMat b) (m3 : CMat c) :
    Matrix ((Fin a × Fin b) × Fin c) ((Fin a × Fin b) × Fin c) ℂ :=
  (m1 ⊗ₖ m2) ⊗ₖ m3

/-- Index type of the composite space, ordered `(phi, zeta), theta`. -/
abbrev FullIdx (p : Params) := (Fin (dim_phi p) × Fin (dim_zeta p)) × Fin (dim_theta p)

/-- Square matrix over the composite space. -/
abbrev FullMat (p : Params) := Matrix (FullIdx p) (FullIdx p) ℂ

/-- Embeds `total_identity()`. -/
def total_identity (p : Params) : FullMat p := kron3 1 1 1

/-- Embeds `phi_operator(energy_esys=False)` (native basis). -/
def phi_operator (p : Params) : FullMat p :=
  kron3 (phi_operator_sub p) 1 1

/-- Embeds `n_phi_operator(energy_esys=False)` (native basis). -/
def n_phi_operator (p : Params) : FullMat p :=
  kron3 (n_phi_operator_sub p) 1 1

/-- Embeds `zeta_operator(energy_esys=False)` (native basis). -/
def zeta_operator (p : Params) : FullMat p :=
  kron3 1 (zeta_operator_sub p) 1

/-- Embeds `n_zeta_operator(energy_esys=False)` (native basis). -/
def n_zeta_operator (p : Params) : FullMat p :=
  kron3 1 (n_zeta_operator_sub p) 1

/-- Embeds `n_theta_operator(energy_esys=False)` (native basis). -/
def n_theta_operator (p : Params) : FullMat p :=
  kron3 1 1 (n_theta_operator_sub p)

/-- Embeds `phi_1_operator(energy_esys=False)`: `zeta_operator() - phi_operator()`. -/
def phi_1_operator (p : Params) : FullMat p :=
  zeta_operator p - phi_operator p

/-- Embeds `phi_2_operator(energy_esys=False)`: `-zeta_operator() - phi_operator()`. -/
def phi_2_operator (p : Params) : FullMat p :=
  -zeta_operator p - phi_operator p

/-- Embeds `n_1_operator(energy_esys=False)`:
`0.5 n_phi + 0.5 (n_theta - n_zeta)`. -/
def n_1_operator (p : Params) : FullMat p :=
  (((1 : ℝ) / 2 : ℝ) : ℂ) • n_phi_operator p +
    (((1 : ℝ) / 2 : ℝ) : ℂ) • (n_theta_operator p - n_zeta_operator p)

/-- Embeds `n_2_operator(energy_esys=False)`:
`0.5 n_phi - 0.5 (n_theta - n_zeta)`. -/
def n_2_operator (p : Params) : FullMat p :=
  (((1 : ℝ) / 2 : ℝ) : ℂ) • n_phi_operator p -
    (((1 : ℝ) / 2 : ℝ) : ℂ) • (n_theta_operator p - n_zeta_operator p)

/-! ### Hamiltonian assembly (native basis) -/

/-- The flux-dependent cosine combination used in the Josephson term:
`cos_phi * cos(flux pi) - sin_phi * sin(flux pi)`. -/
def phi_flux_term (p : Params) (E : CMat (dim_phi p)) : CMat (dim_phi p) :=
  ((Real.cos (p.flux * Real.pi) : ℝ) : ℂ) • cos_phi_operator_sub E -
    ((Real.sin (p.flux * Real.pi) : ℝ) : ℂ) • sin_phi_operator_sub E

/-- The flux-dependent sine combination used in the junction-disorder term:
`sin_phi * cos(flux pi) + cos_phi * sin(flux pi)`. -/
def dis_phi_flux_term (p : Params) (E : CMat (dim_phi p)) : CMat (dim_phi p) :=
  ((Real.cos (p.flux * Real.pi) : ℝ) : ℂ) • sin_phi_operator_sub E +
    ((Real.sin (p.flux * Real.pi) : ℝ) : ℂ) • cos_phi_operator_sub E

/-- The `phi_osc_mat` term of `hamiltonian`: the phi number operator scaled
by the phi plasma frequency, embedded in the full space. -/
def phi_osc_mat (p : Params) : FullMat p :=
  kron3 ((number_sparse (dim_phi p) (phi_plasma p)).map Complex.ofReal) 1 1

/-- The `zeta_osc_mat` term of `hamiltonian`. -/
def zeta_osc_mat (p : Params) : FullMat p :=
  kron3 1 ((number_sparse (dim_zeta p) (zeta_plasma p)).map Complex.ofReal) 1

/-- The `cross_kinetic_mat` term of `hamiltonian`:
`2 ECJp (n_theta - ng - n_zeta) ** 2`. -/
def cross_kinetic_mat (p : Params) : FullMat p :=
  ((2 * disordered_ecj p : ℝ) : ℂ) •
    ((n_theta_operator p - ((p.ng : ℝ) : ℂ) • total_identity p - n_zeta_operator p) ^ 2)

/-- The `junction_mat` term of `hamiltonian`:
`-2 EJ kron3(phi_flux_term, I, cos_theta) + 2 EJ I`. -/
def junction_mat (p : Params) (E : CMat (dim_phi p)) : FullMat p :=
  ((-2 * p.EJ : ℝ) : ℂ) • kron3 (phi_flux_term p E) 1 (cos_theta_operator_sub p) +
    ((2 * p.EJ : ℝ) : ℂ) • total_identity p

/-- The `disorder_l` term of `hamiltonian`. -/
def disorder_l (p : Params) : FullMat p :=
  ((-2 * disordered_el p * p.dL : ℝ) : ℂ) •
    kron3 (phi_operator_sub p) (zeta_operator_sub p) 1

/-- The `disorder_j` term of `hamiltonian`. -/
def disorder_j (p : Params) (E : CMat (dim_phi p)) : FullMat p :=
  ((2 * p.EJ * p.dEJ : ℝ) : ℂ) •
    kron3 (dis_phi_flux_term p E) 1 (sin_theta_operator_sub p)

/-- The `dis_c_opt` factor of the capacitive-disorder term of `hamiltonian`. -/
def dis_c_opt (p : Params) : FullMat p :=
  kron3 (n_phi_operator_sub p) 1 (n_theta_operator_sub p) -
    ((p.ng : ℝ) : ℂ) • n_phi_operator p -
    kron3 (n_phi_operator_sub p) (n_zeta_operator_sub p) 1

/-- The `disorder_c` term of `hamiltonian`. -/
def disorder_c (p : Params) : FullMat p :=
  ((-4 * disordered_ecj p * p.dCJ : ℝ) : ℂ) • dis_c_opt p

/-- Embeds `hamiltonian(energy_esys=False)`: the native-basis sparse matrix,
the sum of the seven terms assembled in the source.  `E` is the value of the
external matrix exponential `expm(1j * _phi_operator())`; it depends only on
`phi_cut`, `ECJ`, `EL`, `EC`, `dCJ`, `dL`, never on `flux`, `EJ` or `ng`. -/
def hamiltonian (p : Params) (E : CMat (dim_phi p)) : FullMat p :=
  phi_osc_mat p + zeta_osc_mat p + cross_kinetic_mat p + junction_mat p E +
    disorder_l p + disorder_j p E + disorder_c p

/-- Embeds `d_hamiltonian_d_flux(energy_esys=False)`. -/
def d_hamiltonian_d_flux (p : Params) (E : CMat (dim_phi p)) : FullMat p :=
  let junction_mat := ((2 * p.EJ * Real.pi : ℝ) : ℂ) •
    kron3 (dis_phi_flux_term p E) 1 (cos_theta_operator_sub p)
  let dis_junction_mat := ((2 * p.dEJ * p.EJ * Real.pi : ℝ) : ℂ) •
    kron3 (phi_flux_term p E) 1 (sin_theta_operator_sub p)
  junction_mat + dis_junction_mat

/-- Embeds `d_hamiltonian_d_EJ(energy_esys=False)`. -/
def d_hamiltonian_d_EJ (p : Params) (E : CMat (dim_phi p)) : FullMat p :=
  let junction_mat := (-2 : ℂ) • kron3 (phi_flux_term p E) 1 (cos_theta_operator_sub p)
  let dis_junction_mat := ((2 * p.dEJ : ℝ) : ℂ) •
    kron3 (dis_phi_flux_term p E) 1 (sin_theta_operator_sub p)
  junction_mat + dis_junction_mat

/-- Models the scipy sparse-matrix subtraction `matrix - scalar`: subtracting
zero returns the matrix unchanged, subtracting a nonzero scalar raises
`NotImplementedError`, modelled as `none`. -/
def sparse_sub_scalar {n : Type} (A : Matrix n n ℂ) (c : ℝ) : Option (Matrix n n ℂ) :=
  if c = 0 then some A else none

/-- Embeds `d_hamiltonian_d_ng(energy_esys=False)`.  The source evaluates
`n_theta_operator() - self.ng - n_zeta_operator()`, whose first subtraction
is sparse-matrix minus scalar and therefore fails for nonzero `ng`. -/
def d_hamiltonian_d_ng (p : Params) : Option (FullMat p) :=
  (sparse_sub_scalar (n_theta_operator p) p.ng).map fun M =>
    ((4 * p.dCJ * disordered_ecj p : ℝ) : ℂ) • n_phi_operator p -
      ((4 * disordered_ecj p : ℝ) : ℂ) • (M - n_zeta_operator p)

/-! ### Real-space wavefunction synthesis -/

/-- The plane-wave factor `exp(-1j n theta) / sqrt(2 pi)` used for the theta
coordinate in `wavefunction`. -/
def planewave (n : ℤ) (theta : ℝ) : ℂ :=
  Complex.exp (-Complex.I * (n : ℂ) * (theta : ℂ)) / ((Real.sqrt (2 * Real.pi) : ℝ) : ℂ)

/-- Embeds the triple summation loop of `wavefunction(esys, which, grids)` at
one grid point: the reshaped eigenvector `amps` is indexed by
`(phi index i, zeta index j, theta index k)` and each term contributes
`amps[i,j,k] * HO(i, phiv, phi_osc) * HO(j, zetav, zeta_osc) *
planewave(k - ncut, thetav)`.  `HO` is the external harmonic-oscillator
wavefunction evaluator `osc.harm_osc_wavefunction(level, coordinate, length)`. -/
def wavefunction_amplitude (p : Params) (HO : ℕ → ℝ → ℝ → ℝ)
    (amps : FullIdx p → ℂ) (phiv zetav thetav : ℝ) : ℂ :=
  ∑ x : FullIdx p, amps x * ((HO (x.1.1 : ℕ) phiv (phi_osc p) : ℝ) : ℂ) *
    ((HO (x.1.2 : ℕ) zetav (zeta_osc p) : ℝ) : ℂ) *
    planewave (((x.2 : ℕ) : ℤ) - (p.ncut : ℤ)) thetav

/-! ### Noise model (NoisyCos2PhiQubit) -/

/-- Embeds `supported_noise_channels()`. -/
def supported_noise_channels : List String :=
  ["tphi_1_over_f_cc", "tphi_1_over_f_flux", "tphi_1_over_f_ng",
   "t1_capacitive", "t1_inductive", "t1_purcell"]

/-- The three forms the quality-factor argument can take in the source:
omitted (`None`, use the built-in default model), a constant, or a callable. -/
inductive QSpec where
  | omitted : QSpec
  | const : ℝ → QSpec
  | fn : (ℝ → ℝ) → QSpec

/-- Resolution of the quality-factor argument into a function of omega,
mirroring the `if Q is None / elif callable(Q) / else` cascade. -/
def resolve_q (q : QSpec) (default_model : ℝ → ℝ) : ℝ → ℝ :=
  match q with
  | .omitted => default_model
  | .const c => fun _ => c
  | .fn f => f

/-- Embeds `spectral_density1` from `t1_inductive`.  `q_fun` is the resolved
quality factor and `therm` the external `calc_therm_ratio(omega, T)`. -/
def ind_spectral_density1 (EL dL : ℝ) (q_fun : ℝ → ℝ) (therm : ℝ → ℝ → ℝ)
    (omega T : ℝ) : ℝ :=
  (2 * EL / (1 - dL) / q_fun omega * (1 / Real.tanh (0.5 * |therm omega T|)) /
    (1 + Real.exp (-(therm omega T)))) * (2 * Real.pi)

/-- Embeds `spectral_density2` from `t1_inductive`. -/
def ind_spectral_density2 (EL dL : ℝ) (q_fun : ℝ → ℝ) (therm : ℝ → ℝ → ℝ)
    (omega T : ℝ) : ℝ :=
  (2 * EL / (1 + dL) / q_fun omega * (1 / Real.tanh (0.5 * |therm omega T|)) /
    (1 + Real.exp (-(therm omega T)))) * (2 * Real.pi)

/-- Embeds `spectral_density1` from `t1_capacitive`:
`2 * 8 * ECJ / (1 - dCJ) / Q_cap(omega) * coth(|r| / 2) / (1 + exp(-r))`
scaled by `2 pi`, with `r = calc_therm_ratio(omega, T)`. -/
def cap_spectral_density1 (ECJ dCJ : ℝ) (q_fun : ℝ → ℝ) (therm : ℝ → ℝ → ℝ)
    (omega T : ℝ) : ℝ :=
  (2 * 8 * ECJ / (1 - dCJ) / q_fun omega * (1 / Real.tanh (0.5 * |therm omega T|)) /
    (1 + Real.exp (-(therm omega T)))) * (2 * Real.pi)

/-- Embeds `spectral_density2` from `t1_capacitive`. -/
def cap_spectral_density2 (ECJ dCJ : ℝ) (q_fun : ℝ → ℝ) (therm : ℝ → ℝ → ℝ)
    (omega T : ℝ) : ℝ :=
  (2 * 8 * ECJ / (1 + dCJ) / q_fun omega * (1 / Real.tanh (0.5 * |therm omega T|)) /
    (1 + Real.exp (-(therm omega T)))) * (2 * Real.pi)

/-- Embeds `spectral_density` from `t1_purcell`. -/
def purcell_spectral_density (EC : ℝ) (q_fun : ℝ → ℝ) (therm : ℝ → ℝ → ℝ)
    (omega T : ℝ) : ℝ :=
  (2 * 8 * EC / q_fun omega * (1 / Real.tanh (0.5 * |therm omega T|)) /
    (1 + Real.exp (-(therm omega T)))) * (2 * Real.pi)

/-- Type of the external golden-rule rate integrator `NoisySystem.t1`,
abstracted over the eigensystem argument type `γ`: arguments are
`i j noise_op spectral_density total esys get_rate`. -/
abbrev RateIntegrator (p : Params) (γ : Type) :=
  ℕ → ℕ → FullMat p → (ℝ → ℝ → ℝ) → Bool → γ → Bool → ℝ

/-- Embeds `t1_inductive`.  The supported-channel list is passed explicitly
(`chans`) to capture the state of `supported_noise_channels()` at call time;
`t1_rate` is the external integrator, `q_ind_default` the built-in
Bessel-based quality-factor model (external, a function of omega and T) and
`therm` the external `calc_therm_ratio`.  Returns the unsupported-channel
error before any computation when the channel is absent, otherwise the two
per-inductor rates are computed with `get_rate=True` and combined. -/
def t1_inductive {γ : Type} (p : Params) (chans : List String)
    (t1_rate : RateIntegrator p γ) (i j : ℕ) (Q_ind : QSpec)
    (q_ind_default : ℝ → ℝ → ℝ) (therm : ℝ → ℝ → ℝ) (T : ℝ)
    (total : Bool) (esys : γ) (get_rate : Bool) : Except String ℝ :=
  if "t1_inductive" ∈ chans then
    let q_ind_fun := resolve_q Q_ind (fun omega => q_ind_default omega T)
    let rate_1 := t1_rate i j (phi_1_operator p)
      (ind_spectral_density1 p.EL p.dL q_ind_fun therm) total esys true
    let rate_2 := t1_rate i j (phi_2_operator p)
      (ind_spectral_density2 p.EL p.dL q_ind_fun therm) total esys true
    .ok (if get_rate then rate_1 + rate_2 else 1 / (rate_1 + rate_2))
  else
    .error "Noise channel t1_inductive is not supported in this system."

/-- Embeds `t1_capacitive`, analogously to `t1_inductive`: two per-junction
rates from the `n_1` and `n_2` operators, combined as rates. -/
def t1_capacitive {γ : Type} (p : Params) (chans : List String)
    (t1_rate : RateIntegrator p γ) (i j : ℕ) (Q_cap : QSpec)
    (q_cap_default : ℝ → ℝ → ℝ) (therm : ℝ → ℝ → ℝ) (T : ℝ)
    (total : Bool) (esys : γ) (get_rate : Bool) : Except String ℝ :=
  if "t1_capacitive" ∈ chans then
    let q_cap_fun := resolve_q Q_cap (fun omega => q_cap_default omega T)
    let rate_1 := t1_rate i j (n_1_operator p)
      (cap_spectral_density1 p.ECJ p.dCJ q_cap_fun therm) total esys true
    let rate_2 := t1_rate i j (n_2_operator p)
      (cap_spectral_density2 p.ECJ p.dCJ q_cap_fun therm) total esys true
    .ok (if get_rate then rate_1 + rate_2 else 1 / (rate_1 + rate_2))
  else
    .error "Noise channel t1_capacitive is not supported in this system."

/-- Embeds `t1_purcell`: a single contribution from the `n_zeta` operator,
with `get_rate` forwarded to the integrator. -/
def t1_purcell {γ : Type} (p : Params) (chans : List String)
    (t1_rate : RateIntegrator p γ) (i j : ℕ) (Q_cap : QSpec)
    (q_cap_default : ℝ → ℝ → ℝ) (therm : ℝ → ℝ → ℝ) (T : ℝ)
    (total : Bool) (esys : γ) (get_rate : Bool) : Except String ℝ :=
  if "t1_purcell" ∈ chans then
    let q_cap_fun := resolve_q Q_cap (fun omega => q_cap_default omega T)
    .ok (t1_rate i j (n_zeta_operator p)
      (purcell_spectral_density p.EC q_cap_fun therm) total esys get_rate)
  else
    .error "Noise channel t1_purcell is not supported in this system."

/-! ### Statement-side definitions used by the claim theorems -/

/-- The spectral-density formula asserted by the specification for the first
junction contribution of `t1_capacitive`: prefactor `16 pi ECJ / (1 - dCJ)`,
divided by the quality factor and multiplied by
`coth(|therm_ratio| / 2) / (1 + exp(-therm_ratio))`.  Written from the
words of the spec, for comparison with `cap_spectral_density1`. -/
def cap_spectral_density1_claim (ECJ dCJ : ℝ) (q_fun : ℝ → ℝ) (therm : ℝ → ℝ → ℝ)
    (omega T : ℝ) : ℝ :=
  16 * Real.pi * ECJ / (1 - dCJ) / q_fun omega *
    ((1 / Real.tanh (|therm omega T| / 2)) / (1 + Real.exp (-(therm omega T))))

/-- The specification formula for the second junction contribution:
prefactor `16 pi ECJ / (1 + dCJ)`.  Written from the words of the spec. -/
def cap_spectral_density2_claim (ECJ dCJ : ℝ) (q_fun : ℝ → ℝ) (therm : ℝ → ℝ → ℝ)
    (omega T : ℝ) : ℝ :=
  16 * Real.pi * ECJ / (1 + dCJ) / q_fun omega *
    ((1 / Real.tanh (|therm omega T| / 2)) / (1 + Real.exp (-(therm omega T))))

/-- Flux-independent part of the Hamiltonian: all terms except the Josephson
kron products (the constant `2 EJ` identity offset is flux-independent and
belongs here). -/
def ham_flux_const (p : Params) : FullMat p :=
  phi_osc_mat p + zeta_osc_mat p + cross_kinetic_mat p +
    ((2 * p.EJ : ℝ) : ℂ) • total_identity p + disorder_l p + disorder_c p

/-- Coefficient matrix of `cos(flux pi)` in the Hamiltonian. -/
def ham_flux_cosmat (p : Params) (E : CMat (dim_phi p)) : FullMat p :=
  ((-2 * p.EJ : ℝ) : ℂ) • kron3 (cos_phi_operator_sub E) 1 (cos_theta_operator_sub p) +
    ((2 * p.EJ * p.dEJ : ℝ) : ℂ) • kron3 (sin_phi_operator_sub E) 1 (sin_theta_operator_sub p)

/-- Coefficient matrix of `sin(flux pi)` in the Hamiltonian. -/
def ham_flux_sinmat (p : Params) (E : CMat (dim_phi p)) : FullMat p :=
  ((2 * p.EJ : ℝ) : ℂ) • kron3 (sin_phi_operator_sub E) 1 (cos_theta_operator_sub p) +
    ((2 * p.EJ * p.dEJ : ℝ) : ℂ) • kron3 (cos_phi_operator_sub E) 1 (sin_theta_operator_sub p)

/-- The part of the Hamiltonian independent of `EJ`. -/
def ham_EJ_const (p : Params) : FullMat p :=
  phi_osc_mat p + zeta_osc_mat p + cross_kinetic_mat p + disorder_l p + disorder_c p

/-- Coefficient matrix of `EJ` in the Hamiltonian, including the `2 EJ`
identity offset that the source derivative `d_hamiltonian_d_EJ` omits. -/
def ham_EJ_lin (p : Params) (E : CMat (dim_phi p)) : FullMat p :=
  (-2 : ℂ) • kron3 (phi_flux_term p E) 1 (cos_theta_operator_sub p) +
    (2 : ℂ) • total_identity p +
    ((2 * p.dEJ : ℝ) : ℂ) • kron3 (dis_phi_flux_term p E) 1 (sin_theta_operator_sub p)

/-- The part of the Hamiltonian independent of `ng`. -/
def ham_ng_const (p : Params) (E : CMat (dim_phi p)) : FullMat p :=
  phi_osc_mat p + zeta_osc_mat p +
    ((2 * disordered_ecj p : ℝ) : ℂ) •
      ((n_theta_operator p - n_zeta_operator p) ^ 2) +
    junction_mat p E + disorder_l p + disorder_j p E +
    ((-4 * disordered_ecj p * p.dCJ : ℝ) : ℂ) •
      (kron3 (n_phi_operator_sub p) 1 (n_theta_operator_sub p) -
        kron3 (n_phi_operator_sub p) (n_zeta_operator_sub p) 1)

/-- Coefficient matrix of `ng` in the Hamiltonian; this is also the exact
partial derivative of the Hamiltonian with respect to `ng` at `ng = 0`. -/
def ham_ng_lin (p : Params) : FullMat p :=
  ((4 * p.dCJ * disordered_ecj p : ℝ) : ℂ) • n_phi_operator p -
    ((4 * disordered_ecj p : ℝ) : ℂ) • (n_theta_operator p - n_zeta_operator p)

/-- Coefficient matrix of `ng ^ 2` in the Hamiltonian. -/
def ham_ng_quad (p : Params) : FullMat p :=
  ((2 * disordered_ecj p : ℝ) : ℂ) • total_identity p

/-- Concrete parameter set used for the counterexample evaluations: all
subspace dimensions equal to one, no disorder, zero flux and offset charge. -/
def cex_params : Params :=
  { EJ := 1, ECJ := 1, EL := 1, EC := 1, dCJ := 0, dL := 0, dEJ := 0,
    flux := 0, ng := 0, ncut := 0, zeta_cut := 1, phi_cut := 1 }

/-- The sole composite index of the one-dimensional counterexample space. -/
def cex_idx : FullIdx cex_params :=
  ((⟨0, Nat.one_pos⟩, ⟨0, Nat.one_pos⟩), ⟨0, Nat.one_pos⟩)

/-! ### Helper lemmas -/

lemma kron3_apply {a b c : ℕ} (m1 : CMat a) (m2 : CMat b) (m3 : CMat c)
    (x y : (Fin a × Fin b) × Fin c) :
    kron3 m1 m2 m3 x y = m1 x.1.1 y.1.1 * m2 x.1.2 y.1.2 * m3 x.2 y.2 := by
  simp [kron3, Matrix.kroneckerMap_apply]

lemma kron3_add_left {a b c : ℕ} (A A' : CMat a) (B : CMat b) (C : CMat c) :
    kron3 (A + A') B C = kron3 A B C + kron3 A' B C := by
  ext x y
  simp [kron3_apply, Matrix.add_apply, add_mul]

lemma kron3_sub_left {a b c : ℕ} (A A' : CMat a) (B : CMat b) (C : CMat c) :
    kron3 (A - A') B C = kron3 A B C - kron3 A' B C := by
  ext x y
  simp [kron3_apply, Matrix.sub_apply, sub_mul]

lemma kron3_smul_left {a b c : ℕ} (s : ℂ) (A : CMat a) (B : CMat b) (C : CMat c) :
    kron3 (s • A) B C = s • kron3 A B C := by
  ext x y
  simp only [kron3_apply, Matrix.smul_apply, smul_eq_mul]
  ring

lemma conjTranspose_kron3 {a b c : ℕ} (A : CMat a) (B : CMat b) (C : CMat c) :
    (kron3 A B C)ᴴ = kron3 Aᴴ Bᴴ Cᴴ := by
  ext x y
  simp only [Matrix.conjTranspose_apply, kron3_apply, star_mul']

lemma isHermitian_kron3 {a b c : ℕ} {A : CMat a} {B : CMat b} {C : CMat c}
    (hA : A.IsHermitian) (hB : B.IsHermitian) (hC : C.IsHermitian) :
    (kron3 A B C).IsHermitian := by
  show _ᴴ = _
  rw [conjTranspose_kron3, hA.eq, hB.eq, hC.eq]

lemma ofReal_smul_isHermitian {m : Type} (r : ℝ) {A : Matrix m m ℂ}
    (hA : A.IsHermitian) : (((r : ℝ) : ℂ) • A).IsHermitian := by
  show _ᴴ = _
  rw [Matrix.conjTranspose_smul, hA.eq, Complex.star_def, Complex.conj_ofReal]

lemma skew_smul_isHermitian {m : Type} {s : ℂ} {A : Matrix m m ℂ}
    (hs : star s = -s) (hA : Aᴴ = -A) : (s • A).IsHermitian := by
  show _ᴴ = _
  rw [Matrix.conjTranspose_smul, hs, hA, neg_smul, smul_neg, neg_neg]

lemma conjTranspose_annihilation (d : ℕ) :
    (annihilation_sparse d)ᴴ = creation_sparse d := by
  ext i j
  simp [annihilation_sparse, creation_sparse, Matrix.conjTranspose_apply,
    Matrix.transpose_apply, apply_ite (star : ℂ → ℂ), Complex.star_def,
    Complex.conj_ofReal]

lemma conjTranspose_creation (d : ℕ) :
    (creation_sparse d)ᴴ = annihilation_sparse d := by
  ext i j
  simp [annihilation_sparse, creation_sparse, Matrix.conjTranspose_apply,
    Matrix.transpose_apply, apply_ite (star : ℂ → ℂ), Complex.star_def,
    Complex.conj_ofReal]

lemma cpa_isHermitian (d : ℕ) :
    (creation_sparse d + annihilation_sparse d).IsHermitian := by
  show _ᴴ = _
  rw [Matrix.conjTranspose_add, conjTranspose_creation, conjTranspose_annihilation,
    add_comm]

lemma cma_skew (d : ℕ) :
    (creation_sparse d - annihilation_sparse d)ᴴ =
      -(creation_sparse d - annihilation_sparse d) := by
  rw [Matrix.conjTranspose_sub, conjTranspose_creation, conjTranspose_annihilation]
  exact (neg_sub _ _).symm

lemma star_I_div_ofReal (x : ℝ) :
    star (Complex.I / ((x : ℝ) : ℂ)) = -(Complex.I / ((x : ℝ) : ℂ)) := by
  simp [Complex.star_def, map_div₀, Complex.conj_I, Complex.conj_ofReal, neg_div]

lemma phi_operator_sub_isHermitian (p : Params) : (phi_operator_sub p).IsHermitian :=
  ofReal_smul_isHermitian _ (cpa_isHermitian _)

lemma zeta_operator_sub_isHermitian (p : Params) : (zeta_operator_sub p).IsHermitian :=
  ofReal_smul_isHermitian _ (cpa_isHermitian _)

lemma n_phi_operator_sub_isHermitian (p : Params) : (n_phi_operator_sub p).IsHermitian :=
  skew_smul_isHermitian (star_I_div_ofReal _) (cma_skew _)

lemma n_zeta_operator_sub_isHermitian (p : Params) : (n_zeta_operator_sub p).IsHermitian :=
  skew_smul_isHermitian (star_I_div_ofReal _) (cma_skew _)

lemma n_theta_operator_sub_isHermitian (p : Params) :
    (n_theta_operator_sub p).IsHermitian := by
  apply Matrix.IsHermitian.ext
  intro i j
  by_cases h : i = j
  · subst h
    simp [n_theta_operator_sub, Matrix.diagonal_apply_eq]
  · simp [n_theta_operator_sub, Matrix.diagonal_apply_ne _ h,
      Matrix.diagonal_apply_ne _ (Ne.symm h)]

lemma cos_theta_operator_sub_isHermitian (p : Params) :
    (cos_theta_operator_sub p).IsHermitian := by
  apply Matrix.IsHermitian.ext
  intro i j
  simp only [cos_theta_operator_sub, Matrix.of_apply, star_add,
    apply_ite (star : ℂ → ℂ), Complex.star_def, Complex.conj_ofReal, map_zero]
  exact add_comm _ _

lemma sin_theta_operator_sub_isHermitian (p : Params) :
    (sin_theta_operator_sub p).IsHermitian := by
  apply Matrix.IsHermitian.ext
  intro i j
  simp only [sin_theta_operator_sub, Matrix.smul_apply, Matrix.of_apply,
    smul_eq_mul, star_mul', star_sub, star_neg, apply_ite (star : ℂ → ℂ),
    Complex.star_def, map_zero, Complex.conj_I, Complex.conj_ofReal]
  ring

lemma number_map_isHermitian (d : ℕ) (prefactor : ℝ) :
    ((number_sparse d prefactor).map Complex.ofReal).IsHermitian := by
  apply Matrix.IsHermitian.ext
  intro i j
  by_cases h : i = j
  · subst h
    simp [number_sparse, Matrix.map_apply, Matrix.diagonal_apply_eq,
      Complex.star_def, Complex.conj_ofReal]
  · simp [number_sparse, Matrix.map_apply, Matrix.diagonal_apply_ne _ h,
      Matrix.diagonal_apply_ne _ (Ne.symm h)]

lemma cos_phi_operator_sub_isHermitian {n : ℕ} (E : CMat n) :
    (cos_phi_operator_sub E).IsHermitian :=
  Matrix.isHermitian_add_transpose_self _

lemma sin_phi_operator_sub_isHermitian {n : ℕ} (E : CMat n) :
    (sin_phi_operator_sub E).IsHermitian :=
  Matrix.isHermitian_add_transpose_self _

lemma total_identity_isHermitian (p : Params) : (total_identity p).IsHermitian :=
  isHermitian_kron3 Matrix.isHermitian_one Matrix.isHermitian_one Matrix.isHermitian_one

lemma phi_operator_isHermitian (p : Params) : (phi_operator p).IsHermitian :=
  isHermitian_kron3 (phi_operator_sub_isHermitian p) Matrix.isHermitian_one
    Matrix.isHermitian_one

lemma n_phi_operator_isHermitian (p : Params) : (n_phi_operator p).IsHermitian :=
  isHermitian_kron3 (n_phi_operator_sub_isHermitian p) Matrix.isHermitian_one
    Matrix.isHermitian_one

lemma n_zeta_operator_isHermitian (p : Params) : (n_zeta_operator p).IsHermitian :=
  isHermitian_kron3 Matrix.isHermitian_one (n_zeta_operator_sub_isHermitian p)
    Matrix.isHermitian_one

lemma n_theta_operator_isHermitian (p : Params) : (n_theta_operator p).IsHermitian :=
  isHermitian_kron3 Matrix.isHermitian_one Matrix.isHermitian_one
    (n_theta_operator_sub_isHermitian p)

lemma phi_flux_term_isHermitian (p : Params) (E : CMat (dim_phi p)) :
    (phi_flux_term p E).IsHermitian :=
  (ofReal_smul_isHermitian _ (cos_phi_operator_sub_isHermitian E)).sub
    (ofReal_smul_isHermitian _ (sin_phi_operator_sub_isHermitian E))

lemma dis_phi_flux_term_isHermitian (p : Params) (E : CMat (dim_phi p)) :
    (dis_phi_flux_term p E).IsHermitian :=
  (ofReal_smul_isHermitian _ (sin_phi_operator_sub_isHermitian E)).add
    (ofReal_smul_isHermitian _ (cos_phi_operator_sub_isHermitian E))

/-! ### Claim theorems -/

lemma total_identity_eq_one (p : Params) : total_identity p = (1 : FullMat p) := by
  unfold total_identity kron3
  rw [Matrix.one_kronecker_one, Matrix.one_kronecker_one]

lemma sub_smul_one_sq {m : Type} [Fintype m] [DecidableEq m]
    (D : Matrix m m ℂ) (c : ℂ) :
    (D - c • (1 : Matrix m m ℂ)) ^ 2 =
      D ^ 2 - (2 * c) • D + (c ^ 2) • (1 : Matrix m m ℂ) := by
  rw [pow_two, sub_mul, mul_sub, mul_sub]
  simp only [smul_mul_assoc, mul_smul_comm, one_mul, mul_one, smul_smul]
  simp only [pow_two]
  module

lemma hamiltonian_flux_decomp (p : Params) (E : CMat (dim_phi p)) (f : ℝ) :
    hamiltonian { p with flux := f } E =
      ham_flux_const p +
        ((Real.cos (f * Real.pi) : ℝ) : ℂ) • ham_flux_cosmat p E +
        ((Real.sin (f * Real.pi) : ℝ) : ℂ) • ham_flux_sinmat p E := by
  have h : hamiltonian { p with flux := f } E =
      phi_osc_mat p + zeta_osc_mat p + cross_kinetic_mat p +
        (((-2 * p.EJ : ℝ) : ℂ) •
          kron3 (((Real.cos (f * Real.pi) : ℝ) : ℂ) • cos_phi_operator_sub E -
            ((Real.sin (f * Real.pi) : ℝ) : ℂ) • sin_phi_operator_sub E) 1
            (cos_theta_operator_sub p) +
          ((2 * p.EJ : ℝ) : ℂ) • total_identity p) +
        disorder_l p +
        ((2 * p.EJ * p.dEJ : ℝ) : ℂ) •
          kron3 (((Real.cos (f * Real.pi) : ℝ) : ℂ) • sin_phi_operator_sub E +
            ((Real.sin (f * Real.pi) : ℝ) : ℂ) • cos_phi_operator_sub E) 1
            (sin_theta_operator_sub p) +
        disorder_c p := rfl
  rw [h]
  unfold ham_flux_const ham_flux_cosmat ham_flux_sinmat
  simp only [kron3_sub_left, kron3_add_left, kron3_smul_left]
  push_cast
  module

lemma hamiltonian_EJ_decomp (p : Params) (E : CMat (dim_phi p)) (e : ℝ) :
    hamiltonian { p with EJ := e } E =
      ham_EJ_const p + ((e : ℝ) : ℂ) • ham_EJ_lin p E := by
  have h : hamiltonian { p with EJ := e } E =
      phi_osc_mat p + zeta_osc_mat p + cross_kinetic_mat p +
        (((-2 * e : ℝ) : ℂ) • kron3 (phi_flux_term p E) 1 (cos_theta_operator_sub p) +
          ((2 * e : ℝ) : ℂ) • total_identity p) +
        disorder_l p +
        ((2 * e * p.dEJ : ℝ) : ℂ) •
          kron3 (dis_phi_flux_term p E) 1 (sin_theta_operator_sub p) +
        disorder_c p := rfl
  rw [h]
  unfold ham_EJ_const ham_EJ_lin
  push_cast
  module

lemma hamiltonian_ng_decomp (p : Params) (E : CMat (dim_phi p)) (g : ℝ) :
    hamiltonian { p with ng := g } E =
      ham_ng_const p E + ((g : ℝ) : ℂ) • ham_ng_lin p +
        (((g : ℝ) : ℂ) ^ 2) • ham_ng_quad p := by
  have h : hamiltonian { p with ng := g } E =
      phi_osc_mat p + zeta_osc_mat p +
        ((2 * disordered_ecj p : ℝ) : ℂ) •
          ((n_theta_operator p - ((g : ℝ) : ℂ) • total_identity p -
            n_zeta_operator p) ^ 2) +
        junction_mat p E + disorder_l p + disorder_j p E +
        ((-4 * disordered_ecj p * p.dCJ : ℝ) : ℂ) •
          (kron3 (n_phi_operator_sub p) 1 (n_theta_operator_sub p) -
            ((g : ℝ) : ℂ) • n_phi_operator p -
            kron3 (n_phi_operator_sub p) (n_zeta_operator_sub p) 1) := rfl
  rw [h]
  have hX : n_theta_operator p - ((g : ℝ) : ℂ) • total_identity p - n_zeta_operator p =
      (n_theta_operator p - n_zeta_operator p) - ((g : ℝ) : ℂ) • (1 : FullMat p) := by
    rw [total_identity_eq_one]
    module
  rw [hX, sub_smul_one_sq]
  unfold ham_ng_const ham_ng_lin ham_ng_quad
  rw [total_identity_eq_one]
  push_cast
  module

lemma d_flux_expand (p : Params) (E : CMat (dim_phi p)) (f₀ : ℝ) :
    d_hamiltonian_d_flux { p with flux := f₀ } E =
      ((-Real.sin (f₀ * Real.pi) * Real.pi : ℝ) : ℂ) • ham_flux_cosmat p E +
        ((Real.cos (f₀ * Real.pi) * Real.pi : ℝ) : ℂ) • ham_flux_sinmat p E := by
  have h : d_hamiltonian_d_flux { p with flux := f₀ } E =
      ((2 * p.EJ * Real.pi : ℝ) : ℂ) •
        kron3 (((Real.cos (f₀ * Real.pi) : ℝ) : ℂ) • sin_phi_operator_sub E +
          ((Real.sin (f₀ * Real.pi) : ℝ) : ℂ) • cos_phi_operator_sub E) 1
          (cos_theta_operator_sub p) +
      ((2 * p.dEJ * p.EJ * Real.pi : ℝ) : ℂ) •
        kron3 (((Real.cos (f₀ * Real.pi) : ℝ) : ℂ) • cos_phi_operator_sub E -
          ((Real.sin (f₀ * Real.pi) : ℝ) : ℂ) • sin_phi_operator_sub E) 1
          (sin_theta_operator_sub p) := rfl
  rw [h]
  unfold ham_flux_cosmat ham_flux_sinmat
  simp only [kron3_sub_left, kron3_add_left, kron3_smul_left]
  push_cast
  module

lemma d_EJ_expand (p : Params) (E : CMat (dim_phi p)) (e₀ : ℝ) :
    (d_hamiltonian_d_EJ { p with EJ := e₀ } E : FullMat p) +
      (2 : ℂ) • total_identity p = ham_EJ_lin p E := by
  have h : d_hamiltonian_d_EJ { p with EJ := e₀ } E = d_hamiltonian_d_EJ p E := rfl
  rw [h]
  unfold d_hamiltonian_d_EJ ham_EJ_lin
  module

/-- Claim C2: for every parameter set (including nonzero disorder, flux and
offset charge) the native-basis Hamiltonian equals its own conjugate
transpose, for every value `E` of the external matrix exponential. -/
theorem C2_theorem (p : Params) (E : CMat (dim_phi p)) :
    (hamiltonian p E).IsHermitian := by
  have h1 : (phi_osc_mat p).IsHermitian :=
    isHermitian_kron3 (number_map_isHermitian _ _) Matrix.isHermitian_one
      Matrix.isHermitian_one
  have h2 : (zeta_osc_mat p).IsHermitian :=
    isHermitian_kron3 Matrix.isHermitian_one (number_map_isHermitian _ _)
      Matrix.isHermitian_one
  have hX : (n_theta_operator p - ((p.ng : ℝ) : ℂ) • total_identity p -
      n_zeta_operator p).IsHermitian :=
    ((n_theta_operator_isHermitian p).sub
      (ofReal_smul_isHermitian _ (total_identity_isHermitian p))).sub
      (n_zeta_operator_isHermitian p)
  have h3 : (cross_kinetic_mat p).IsHermitian := ofReal_smul_isHermitian _ (hX.pow 2)
  have h4 : (junction_mat p E).IsHermitian :=
    (ofReal_smul_isHermitian _ (isHermitian_kron3 (phi_flux_term_isHermitian p E)
      Matrix.isHermitian_one (cos_theta_operator_sub_isHermitian p))).add
      (ofReal_smul_isHermitian _ (total_identity_isHermitian p))
  have h5 : (disorder_l p).IsHermitian :=
    ofReal_smul_isHermitian _ (isHermitian_kron3 (phi_operator_sub_isHermitian p)
      (zeta_operator_sub_isHermitian p) Matrix.isHermitian_one)
  have h6 : (disorder_j p E).IsHermitian :=
    ofReal_smul_isHermitian _ (isHermitian_kron3 (dis_phi_flux_term_isHermitian p E)
      Matrix.isHermitian_one (sin_theta_operator_sub_isHermitian p))
  have h7 : (disorder_c p).IsHermitian :=
    ofReal_smul_isHermitian _
      (((isHermitian_kron3 (n_phi_operator_sub_isHermitian p) Matrix.isHermitian_one
          (n_theta_operator_sub_isHermitian p)).sub
        (ofReal_smul_isHermitian _ (n_phi_operator_isHermitian p))).sub
        (isHermitian_kron3 (n_phi_operator_sub_isHermitian p)
          (n_zeta_operator_sub_isHermitian p) Matrix.isHermitian_one))
  exact (((((h1.add h2).add h3).add h4).add h5).add h6).add h7

lemma cex_ham_EJ_entry (e : ℝ) :
    hamiltonian { cex_params with EJ := e } (1 : CMat (dim_phi cex_params))
      cex_idx cex_idx = ((2 * e : ℝ) : ℂ) := by
  simp [hamiltonian, phi_osc_mat, zeta_osc_mat, cross_kinetic_mat, junction_mat,
    disorder_l, disorder_j, disorder_c, dis_c_opt, cex_params, cex_idx,
    total_identity, n_theta_operator, n_zeta_operator, n_phi_operator,
    kron3_apply, number_sparse, n_theta_operator_sub, n_zeta_operator_sub,
    n_phi_operator_sub, phi_operator_sub, zeta_operator_sub,
    cos_theta_operator_sub, sin_theta_operator_sub, annihilation_sparse,
    creation_sparse, Matrix.smul_apply, Matrix.add_apply, Matrix.sub_apply,
    Matrix.map_apply, Matrix.diagonal_apply, Matrix.one_apply, pow_two,
    Matrix.mul_apply, Fin.sum_univ_one, Matrix.transpose_apply, smul_eq_mul]

lemma cex_d_EJ_entry :
    d_hamiltonian_d_EJ { cex_params with EJ := (1 : ℝ) }
      (1 : CMat (dim_phi cex_params)) cex_idx cex_idx = 0 := by
  simp [d_hamiltonian_d_EJ, phi_flux_term, dis_phi_flux_term, cex_params, cex_idx,
    kron3_apply, cos_theta_operator_sub, sin_theta_operator_sub,
    cos_phi_operator_sub, sin_phi_operator_sub, Matrix.smul_apply,
    Matrix.add_apply, Matrix.sub_apply, Matrix.one_apply, smul_eq_mul]

/-- Claim C1 counterexample: with all subspace dimensions equal to one (where
the charge-basis trigonometric operators vanish), the Hamiltonian entry is
`2 EJ` (from the constant `2 EJ` identity offset) while
`d_hamiltonian_d_EJ(False)` is `0`; hence `d_hamiltonian_d_EJ` is not the
derivative of `hamiltonian(False)` with respect to `EJ` at `EJ = 1`. -/
theorem C1_counterexample :
    ¬ HasDerivAt
      (fun e : ℝ => hamiltonian { cex_params with EJ := e }
        (1 : CMat (dim_phi cex_params)) cex_idx cex_idx)
      (d_hamiltonian_d_EJ { cex_params with EJ := (1 : ℝ) }
        (1 : CMat (dim_phi cex_params)) cex_idx cex_idx) 1 := by
  intro h
  rw [cex_d_EJ_entry] at h
  have h2 : HasDerivAt
      (fun e : ℝ => hamiltonian { cex_params with EJ := e }
        (1 : CMat (dim_phi cex_params)) cex_idx cex_idx) (((2 : ℝ) : ℂ)) 1 := by
    have hfun : (fun e : ℝ => hamiltonian { cex_params with EJ := e }
        (1 : CMat (dim_phi cex_params)) cex_idx cex_idx) =
        fun e : ℝ => ((2 * e : ℝ) : ℂ) := funext fun e => cex_ham_EJ_entry e
    rw [hfun]
    have hd := (((hasDerivAt_id (1 : ℝ)).const_mul (2 : ℝ))).ofReal_comp
    simpa using hd
  have hu := h2.unique h
  simp at hu

/-- Claim C1 (corrected): in the native basis, `d_hamiltonian_d_flux(False)`
is the exact entrywise partial derivative of `hamiltonian(False)` with
respect to `flux`; `d_hamiltonian_d_EJ(False)` differs from the exact
derivative with respect to `EJ` by the constant matrix `2 I` (the derivative
of the `2 EJ` identity offset, which the source omits), so
`d_hamiltonian_d_EJ + 2 I` is the exact derivative; `d_hamiltonian_d_ng(False)`
only succeeds at `ng = 0`, where the returned operator is the exact
derivative with respect to `ng`. -/
theorem C1_theorem (p : Params) (E : CMat (dim_phi p)) :
    (∀ (x y : FullIdx p) (f₀ : ℝ),
      HasDerivAt (fun f => hamiltonian { p with flux := f } E x y)
        (d_hamiltonian_d_flux { p with flux := f₀ } E x y) f₀) ∧
    (∀ (x y : FullIdx p) (e₀ : ℝ),
      HasDerivAt (fun e => hamiltonian { p with EJ := e } E x y)
        (((d_hamiltonian_d_EJ { p with EJ := e₀ } E : FullMat p) +
          (2 : ℂ) • total_identity p) x y) e₀) ∧
    (d_hamiltonian_d_ng { p with ng := 0 } = some (ham_ng_lin p) ∧
      ∀ (x y : FullIdx p),
        HasDerivAt (fun g => hamiltonian { p with ng := g } E x y)
          (ham_ng_lin p x y) 0) := by
  refine ⟨?_, ?_, ?_, ?_⟩
  · intro x y f₀
    have hb : HasDerivAt (fun f : ℝ => f * Real.pi) Real.pi f₀ := by
      simpa using (hasDerivAt_id f₀).mul_const Real.pi
    have hcos : HasDerivAt (fun f : ℝ => Real.cos (f * Real.pi))
        (-Real.sin (f₀ * Real.pi) * Real.pi) f₀ := by
      simpa [Function.comp] using (Real.hasDerivAt_cos (f₀ * Real.pi)).comp f₀ hb
    have hsin : HasDerivAt (fun f : ℝ => Real.sin (f * Real.pi))
        (Real.cos (f₀ * Real.pi) * Real.pi) f₀ := by
      simpa [Function.comp] using (Real.hasDerivAt_sin (f₀ * Real.pi)).comp f₀ hb
    have hsum : HasDerivAt
        (fun f : ℝ => ham_flux_const p x y +
          ((Real.cos (f * Real.pi) : ℝ) : ℂ) * ham_flux_cosmat p E x y +
          ((Real.sin (f * Real.pi) : ℝ) : ℂ) * ham_flux_sinmat p E x y)
        (((-Real.sin (f₀ * Real.pi) * Real.pi : ℝ) : ℂ) * ham_flux_cosmat p E x y +
          ((Real.cos (f₀ * Real.pi) * Real.pi : ℝ) : ℂ) * ham_flux_sinmat p E x y)
        f₀ :=
      ((hcos.ofReal_comp.mul_const _).const_add _).add (hsin.ofReal_comp.mul_const _)
    have hfun : (fun f : ℝ => hamiltonian { p with flux := f } E x y) =
        fun f : ℝ => ham_flux_const p x y +
          ((Real.cos (f * Real.pi) : ℝ) : ℂ) * ham_flux_cosmat p E x y +
          ((Real.sin (f * Real.pi) : ℝ) : ℂ) * ham_flux_sinmat p E x y :=
      funext fun f => by
        rw [hamiltonian_flux_decomp p E f]
        simp [Matrix.add_apply, Matrix.smul_apply, smul_eq_mul]
    rw [hfun, d_flux_expand p E f₀]
    simpa [Matrix.add_apply, Matrix.smul_apply, smul_eq_mul] using hsum
  · intro x y e₀
    have hlin : HasDerivAt (fun e : ℝ => ((e : ℝ) : ℂ)) 1 e₀ := by
      simpa using (hasDerivAt_id e₀).ofReal_comp
    have hsum : HasDerivAt
        (fun e : ℝ => ham_EJ_const p x y + ((e : ℝ) : ℂ) * ham_EJ_lin p E x y)
        ((1 : ℂ) * ham_EJ_lin p E x y) e₀ :=
      (hlin.mul_const _).const_add _
    have hfun : (fun e : ℝ => hamiltonian { p with EJ := e } E x y) =
        fun e : ℝ => ham_EJ_const p x y + ((e : ℝ) : ℂ) * ham_EJ_lin p E x y :=
      funext fun e => by
        rw [hamiltonian_EJ_decomp p E e]
        simp [Matrix.add_apply, Matrix.smul_apply, smul_eq_mul]
    rw [hfun]
    have htarget : (((d_hamiltonian_d_EJ { p with EJ := e₀ } E : FullMat p) +
        (2 : ℂ) • total_identity p) x y) = (1 : ℂ) * ham_EJ_lin p E x y := by
      rw [d_EJ_expand p E e₀]
      ring
    rw [htarget]
    exact hsum
  · simp only [d_hamiltonian_d_ng, sparse_sub_scalar, if_true, Option.map_some']
    rfl
  · intro x y
    have hg : HasDerivAt (fun g : ℝ => ((g : ℝ) : ℂ)) 1 0 := by
      simpa using (hasDerivAt_id (0 : ℝ)).ofReal_comp
    have hsq := hg.mul hg
    have hsum :=
      ((hg.mul_const (ham_ng_lin p x y)).const_add (ham_ng_const p E x y)).add
        (hsq.mul_const (ham_ng_quad p x y))
    have hfun : (fun g : ℝ => hamiltonian { p with ng := g } E x y) =
        fun g : ℝ => ham_ng_const p E x y + ((g : ℝ) : ℂ) * ham_ng_lin p x y +
          ((g : ℝ) : ℂ) * ((g : ℝ) : ℂ) * ham_ng_quad p x y :=
      funext fun g => by
        rw [hamiltonian_ng_decomp p E g]
        simp [Matrix.add_apply, Matrix.smul_apply, smul_eq_mul, pow_two]
    rw [hfun]
    simpa using hsum

/-- Claim C7: in the native basis the branch operators satisfy the exact
identities `n_1 + n_2 = n_phi` and `phi_1 + phi_2 = -2 phi`. -/
theorem C7_theorem (p : Params) :
    n_1_operator p + n_2_operator p = n_phi_operator p ∧
    phi_1_operator p + phi_2_operator p = (-2 : ℂ) • phi_operator p := by
  constructor
  · simp only [n_1_operator, n_2_operator]
    push_cast
    module
  · simp only [phi_1_operator, phi_2_operator]
    module

/-- Claim C8: `hilbertdim()` returns `phi_cut * zeta_cut * (2 ncut + 1)`,
and for the default parameter set (EJ=15, ECJ=2, EL=1, EC=0.04, dCJ=0,
dL=0.6, dEJ=0, flux=0.5, ng=0, ncut=7, zeta_cut=30, phi_cut=7) the dimension
is `7 * 30 * 15 = 3150`. -/
theorem C8_theorem :
    (∀ p : Params, hilbertdim p = p.phi_cut * p.zeta_cut * (2 * p.ncut + 1)) ∧
    hilbertdim default_params = 3150 ∧ 7 * 30 * 15 = 3150 ∧
    default_params.EJ = 15 ∧ default_params.ECJ = 2 ∧ default_params.EL = 1 ∧
    default_params.EC = 0.04 ∧ default_params.dCJ = 0 ∧ default_params.dL = 0.6 ∧
    default_params.dEJ = 0 ∧ default_params.flux = 0.5 ∧ default_params.ng = 0 ∧
    default_params.ncut = 7 ∧ default_params.zeta_cut = 30 ∧ default_params.phi_cut = 7 :=
  ⟨fun _ => rfl, by decide, by decide, rfl, rfl, rfl, rfl, rfl, rfl, rfl, rfl, rfl,
    rfl, rfl, rfl⟩

/-- Claim C10: `number` and `number_sparse` scale the diagonal by the
prefactor exactly when it is truthy; a zero prefactor yields the unscaled
number operator rather than the zero matrix. -/
theorem C10_theorem (dimension : ℕ) :
    (∀ prefactor : ℝ, prefactor ≠ 0 →
      number dimension prefactor = prefactor • number_plain dimension ∧
      number_sparse dimension prefactor = prefactor • number_plain dimension) ∧
    number dimension 0 = number_plain dimension ∧
    number_sparse dimension 0 = number_plain dimension ∧
    number 2 (0 : ℝ) ≠ (0 : Matrix (Fin 2) (Fin 2) ℝ) := by
  refine ⟨fun prefactor h => ⟨?_, ?_⟩, ?_, ?_, ?_⟩
  · ext i j
    by_cases hij : i = j <;>
      simp [number, number_plain, Matrix.diagonal_apply, hij, h, mul_comm]
  · ext i j
    by_cases hij : i = j <;>
      simp [number_sparse, number_plain, Matrix.diagonal_apply, hij, h, mul_comm]
  · ext i j
    by_cases hij : i = j <;> simp [number, number_plain, Matrix.diagonal_apply, hij]
  · ext i j
    by_cases hij : i = j <;> simp [number_sparse, number_plain, Matrix.diagonal_apply, hij]
  · intro hcontra
    have h1 : number 2 (0 : ℝ) 1 1 = 0 := by rw [hcontra]; rfl
    simp [number, Matrix.diagonal_apply] at h1

/-- Claim C10 witness: concrete evaluation at dimension 3 and prefactor 2. -/
theorem C10_witness :
    (2 : ℝ) ≠ 0 ∧ number 3 2 = (2 : ℝ) • number_plain 3 ∧
      number_sparse 3 2 = (2 : ℝ) • number_plain 3 :=
  ⟨by norm_num, ((C10_theorem 3).1 2 (by norm_num)).1, ((C10_theorem 3).1 2 (by norm_num)).2⟩

/-- Claim C4: `d_hamiltonian_d_ng(False)` fails (sparse matrix minus nonzero
scalar) whenever `ng` is nonzero, and for `ng = 0` returns
`4 dCJ ECJp n_phi - 4 ECJp (n_theta - n_zeta)` in the native basis, with
`ECJp = ECJ / (1 - dCJ ^ 2)`. -/
theorem C4_theorem (p : Params) :
    d_hamiltonian_d_ng p =
      if p.ng = 0 then
        some (((4 * p.dCJ * disordered_ecj p : ℝ) : ℂ) • n_phi_operator p -
          ((4 * disordered_ecj p : ℝ) : ℂ) • (n_theta_operator p - n_zeta_operator p))
      else none := by
  unfold d_hamiltonian_d_ng sparse_sub_scalar
  by_cases h : p.ng = 0 <;> simp [h]

/-- Claim C3 counterexample: at `ECJ = 1`, `dCJ = 0`, unit quality factor and
thermal ratio 1, the spectral density computed by the source differs from the
value asserted by the specification (the source prefactor is `32 pi ECJ`,
twice the claimed `16 pi ECJ`). -/
theorem C3_counterexample :
    cap_spectral_density1 1 0 (fun _ => 1) (fun _ _ => 1) 0 0 ≠
      cap_spectral_density1_claim 1 0 (fun _ => 1) (fun _ _ => 1) 0 0 := by
  have ht : 0 < Real.tanh (0.5 * |(1 : ℝ)|) := by
    rw [Real.tanh_eq_sinh_div_cosh]
    have h1 : (0 : ℝ) < 0.5 * |(1 : ℝ)| := by norm_num
    positivity
  have he : 0 < 1 + Real.exp (-(1 : ℝ)) := by positivity
  unfold cap_spectral_density1 cap_spectral_density1_claim
  have harg : |(1 : ℝ)| / 2 = 0.5 * |(1 : ℝ)| := by norm_num
  rw [harg]
  intro hcontra
  beta_reduce at hcontra
  set t := Real.tanh (0.5 * |(1 : ℝ)|) with hts
  set e := Real.exp (-(1 : ℝ)) with hes
  have ht0 : t ≠ 0 := ne_of_gt ht
  have he0 : 1 + e ≠ 0 := ne_of_gt he
  field_simp at hcontra
  nlinarith [Real.pi_pos, ht, he, hcontra]

/-- Claim C3 (corrected): the spectral densities of `t1_capacitive` carry the
prefactor `32 pi ECJ / (1 -+ dCJ)` (that is, `2 * 8 * ECJ * 2 pi`), not
`16 pi ECJ / (1 -+ dCJ)`; the thermal factor
`coth(|therm_ratio| / 2) / (1 + exp(-therm_ratio))` is as claimed. -/
theorem C3_theorem (ECJ dCJ : ℝ) (q_fun : ℝ → ℝ) (therm : ℝ → ℝ → ℝ) (omega T : ℝ) :
    cap_spectral_density1 ECJ dCJ q_fun therm omega T =
      32 * Real.pi * ECJ / (1 - dCJ) / q_fun omega *
        ((1 / Real.tanh (0.5 * |therm omega T|)) / (1 + Real.exp (-(therm omega T)))) ∧
    cap_spectral_density2 ECJ dCJ q_fun therm omega T =
      32 * Real.pi * ECJ / (1 + dCJ) / q_fun omega *
        ((1 / Real.tanh (0.5 * |therm omega T|)) / (1 + Real.exp (-(therm omega T)))) := by
  constructor
  · unfold cap_spectral_density1
    ring
  · unfold cap_spectral_density2
    ring

/-- Claim C5: `supported_noise_channels()` is exactly the six expected
channel names, and each of the three T1 methods returns the
unsupported-channel error exactly when its own channel name is missing from
the supported list supplied at call time. -/
theorem C5_theorem :
    supported_noise_channels = ["tphi_1_over_f_cc", "tphi_1_over_f_flux",
      "tphi_1_over_f_ng", "t1_capacitive", "t1_inductive", "t1_purcell"] ∧
    (∀ (γ : Type) (p : Params) (chans : List String) (t1_rate : RateIntegrator p γ)
      (i j : ℕ) (Q : QSpec) (qd therm : ℝ → ℝ → ℝ) (T : ℝ)
      (total : Bool) (esys : γ) (get_rate : Bool),
      ((∃ msg, t1_inductive p chans t1_rate i j Q qd therm T total esys get_rate =
          .error msg) ↔ "t1_inductive" ∉ chans) ∧
      ((∃ msg, t1_capacitive p chans t1_rate i j Q qd therm T total esys get_rate =
          .error msg) ↔ "t1_capacitive" ∉ chans) ∧
      ((∃ msg, t1_purcell p chans t1_rate i j Q qd therm T total esys get_rate =
          .error msg) ↔ "t1_purcell" ∉ chans)) := by
  refine ⟨rfl, ?_⟩
  intro γ p chans t1_rate i j Q qd therm T total esys get_rate
  refine ⟨⟨?_, ?_⟩, ⟨?_, ?_⟩, ⟨?_, ?_⟩⟩
  · rintro ⟨msg, hmsg⟩ hmem
    unfold t1_inductive at hmsg
    rw [if_pos hmem] at hmsg
    exact Except.noConfusion hmsg
  · intro hmem
    exact ⟨_, by unfold t1_inductive; rw [if_neg hmem]⟩
  · rintro ⟨msg, hmsg⟩ hmem
    unfold t1_capacitive at hmsg
    rw [if_pos hmem] at hmsg
    exact Except.noConfusion hmsg
  · intro hmem
    exact ⟨_, by unfold t1_capacitive; rw [if_neg hmem]⟩
  · rintro ⟨msg, hmsg⟩ hmem
    unfold t1_purcell at hmsg
    rw [if_pos hmem] at hmsg
    exact Except.noConfusion hmsg
  · intro hmem
    exact ⟨_, by unfold t1_purcell; rw [if_neg hmem]⟩

/-- Claim C5 witness: with the channel list emptied at call time,
`t1_inductive` returns the unsupported-channel error. -/
theorem C5_witness :
    ("t1_inductive" ∉ ([] : List String)) ∧
    ∃ msg, t1_inductive (γ := Unit) cex_params [] (fun _ _ _ _ _ _ _ => 0) 1 0
      QSpec.omitted (fun _ _ => 1) (fun _ _ => 1) 0 true () false = .error msg :=
  ⟨by simp, ((C5_theorem.2 Unit cex_params [] (fun _ _ _ _ _ _ _ => 0) 1 0
      QSpec.omitted (fun _ _ => 1) (fun _ _ => 1) 0 true () false).1).mpr (by simp)⟩

/-- Claim C6: `t1_inductive` and `t1_capacitive` compute one rate per
inductor or junction operator via the external integrator (with
`get_rate=True`), then return the sum of the two rates when `get_rate` is
true and the reciprocal of that sum when it is false. -/
theorem C6_theorem (γ : Type) (p : Params) (t1_rate : RateIntegrator p γ)
    (i j : ℕ) (Q : QSpec) (qd therm : ℝ → ℝ → ℝ) (T : ℝ) (total : Bool) (esys : γ) :
    (t1_inductive p supported_noise_channels t1_rate i j Q qd therm T total esys true =
      .ok (t1_rate i j (phi_1_operator p)
            (ind_spectral_density1 p.EL p.dL (resolve_q Q fun om => qd om T) therm)
            total esys true +
          t1_rate i j (phi_2_operator p)
            (ind_spectral_density2 p.EL p.dL (resolve_q Q fun om => qd om T) therm)
            total esys true)) ∧
    (t1_inductive p supported_noise_channels t1_rate i j Q qd therm T total esys false =
      .ok (1 / (t1_rate i j (phi_1_operator p)
            (ind_spectral_density1 p.EL p.dL (resolve_q Q fun om => qd om T) therm)
            total esys true +
          t1_rate i j (phi_2_operator p)
            (ind_spectral_density2 p.EL p.dL (resolve_q Q fun om => qd om T) therm)
            total esys true))) ∧
    (t1_capacitive p supported_noise_channels t1_rate i j Q qd therm T total esys true =
      .ok (t1_rate i j (n_1_operator p)
            (cap_spectral_density1 p.ECJ p.dCJ (resolve_q Q fun om => qd om T) therm)
            total esys true +
          t1_rate i j (n_2_operator p)
            (cap_spectral_density2 p.ECJ p.dCJ (resolve_q Q fun om => qd om T) therm)
            total esys true)) ∧
    (t1_capacitive p supported_noise_channels t1_rate i j Q qd therm T total esys false =
      .ok (1 / (t1_rate i j (n_1_operator p)
            (cap_spectral_density1 p.ECJ p.dCJ (resolve_q Q fun om => qd om T) therm)
            total esys true +
          t1_rate i j (n_2_operator p)
            (cap_spectral_density2 p.ECJ p.dCJ (resolve_q Q fun om => qd om T) therm)
            total esys true))) := by
  have hmem1 : "t1_inductive" ∈ supported_noise_channels := by decide
  have hmem2 : "t1_capacitive" ∈ supported_noise_channels := by decide
  refine ⟨?_, ?_, ?_, ?_⟩ <;>
    first
      | (unfold t1_inductive; rw [if_pos hmem1]; rfl)
      | (unfold t1_capacitive; rw [if_pos hmem2]; rfl)

/-- Claim C9: when the selected eigenvector column is the basis vector with
amplitude 1 at basis index triple `(0, 0, 0)` and 0 elsewhere, the
synthesized wavefunction amplitude at every grid point equals the single
product term `HO(0, phi, phi_osc) * HO(0, zeta, zeta_osc) *
exp(-1j * (-ncut) * theta) / sqrt(2 pi)`. -/
theorem C9_theorem (p : Params) (hphi : 0 < dim_phi p) (hzeta : 0 < dim_zeta p)
    (HO : ℕ → ℝ → ℝ → ℝ) (phiv zetav thetav : ℝ) :
    wavefunction_amplitude p HO
      (fun x => if x = ((⟨0, hphi⟩, ⟨0, hzeta⟩), ⟨0, Nat.succ_pos _⟩) then 1 else 0)
      phiv zetav thetav =
    ((HO 0 phiv (phi_osc p) : ℝ) : ℂ) * ((HO 0 zetav (zeta_osc p) : ℝ) : ℂ) *
      planewave (-(p.ncut : ℤ)) thetav := by
  unfold wavefunction_amplitude
  rw [Finset.sum_eq_single
    ((((⟨0, hphi⟩, ⟨0, hzeta⟩), ⟨0, Nat.succ_pos _⟩)) : FullIdx p)
    (fun x _ hx => by simp only [if_neg hx, zero_mul])
    (fun hx => absurd (Finset.mem_univ _) hx)]
  simp

/-- Claim C9 witness: concrete instance at the one-dimensional parameter set
with a constant harmonic-oscillator evaluator, evaluated at the origin. -/
theorem C9_witness :
    (0 < dim_phi cex_params ∧ 0 < dim_zeta cex_params) ∧
    wavefunction_amplitude cex_params (fun _ _ _ => 1)
      (fun x => if x = ((⟨0, Nat.one_pos⟩, ⟨0, Nat.one_pos⟩),
        ⟨0, Nat.succ_pos _⟩) then 1 else 0) 0 0 0 =
    ((((fun (_ : ℕ) (_ : ℝ) (_ : ℝ) => (1 : ℝ)) 0 0 (phi_osc cex_params) : ℝ) : ℂ)) *
      ((((fun (_ : ℕ) (_ : ℝ) (_ : ℝ) => (1 : ℝ)) 0 0 (zeta_osc cex_params) : ℝ) : ℂ)) *
      planewave (-(cex_params.ncut : ℤ)) 0 :=
  ⟨⟨Nat.one_pos, Nat.one_pos⟩,
    C9_theorem cex_params Nat.one_pos Nat.one_pos (fun _ _ _ => 1) 0 0 0⟩

end Scq

end
